import Mathlib

/-!
Verification of the jsstringutils grapheme-cluster segmentation engine and of
two string utilities (`truncateTextByRanges`, `resolvePlaceholder`).

A text is modelled as a `List Nat` of 16-bit code units (the JavaScript string
representation).  The grapheme-breaker engine itself
(`libs/grapheme-breaker-mjs-mod`, called by the `StringUtils` wrappers
`getNextUnicodeOffset`, `getPreviousUnicodeOffset`, `splitIntoUnicodeChar`,
`countUnicodeChars`) is not part of the available sources, so it is modelled
from the specification: its data model (code-unit decoder, break-property
classifier, boundary engine) and the four iteration operations follow the
spec's sections 3, 4.1-4.4 word by word.
-/

/-- Grapheme break category.  Modelled from the spec: "Break category: one of
{Other, Control, Extend, ZeroWidthJoiner, RegionalIndicator,
ExtendedPictographic, SpacingMark, Prepend, L, V, T, LV, LVT}". -/
inductive GBCat where
  | Other
  | Control
  | Extend
  | ZeroWidthJoiner
  | RegionalIndicator
  | ExtendedPictographic
  | SpacingMark
  | Prepend
  | L
  | V
  | T
  | LV
  | LVT
deriving DecidableEq

/-- Break-property classifier.  Modelled from the spec: a pure function from
scalar code point to break category, backed by inclusive range tables, with
default `Other`.  The spec fixes RegionalIndicator as U+1F1E6-U+1F1FF, Extend
as combining marks, variation selectors and emoji skin-tone/hair-style
modifiers, and ExtendedPictographic as the standard emoji base characters;
the remaining tables are representative ranges in the spirit of UAX #29.
Unpaired surrogates (0xD800-0xDFFF) fall into no table and default to
`Other`. -/
def gbCat (c : Nat) : GBCat :=
  if c = 0x200D then GBCat.ZeroWidthJoiner
  else if 0x1F1E6 ≤ c ∧ c ≤ 0x1F1FF then GBCat.RegionalIndicator
  else if (0x0300 ≤ c ∧ c ≤ 0x036F) ∨ (0x20D0 ≤ c ∧ c ≤ 0x20FF) ∨
      (0xFE00 ≤ c ∧ c ≤ 0xFE0F) ∨ (0x1F3FB ≤ c ∧ c ≤ 0x1F3FF) ∨
      (0x1F9B0 ≤ c ∧ c ≤ 0x1F9B3) then GBCat.Extend
  else if c ≤ 0x1F ∨ (0x7F ≤ c ∧ c ≤ 0x9F) then GBCat.Control
  else if c = 0x0903 ∨ c = 0x093B ∨ c = 0x1A55 then GBCat.SpacingMark
  else if 0x0600 ≤ c ∧ c ≤ 0x0605 then GBCat.Prepend
  else if 0x1100 ≤ c ∧ c ≤ 0x115F then GBCat.L
  else if 0x1160 ≤ c ∧ c ≤ 0x11A7 then GBCat.V
  else if 0x11A8 ≤ c ∧ c ≤ 0x11FF then GBCat.T
  else if 0xAC00 ≤ c ∧ c ≤ 0xD7A3 then
    (if (c - 0xAC00) % 28 = 0 then GBCat.LV else GBCat.LVT)
  else if (0x2600 ≤ c ∧ c ≤ 0x27BF) ∨ (0x1F000 ≤ c ∧ c ≤ 0x1F1E5) ∨
      (0x1F200 ≤ c ∧ c ≤ 0x1FAFF) then GBCat.ExtendedPictographic
  else GBCat.Other

/-- Code-unit decoder.  Modelled from the spec: "if the code unit at `offset`
is a high surrogate and `offset+1` is within bounds and holds a low surrogate,
combine them via `0x10000 + (high-0xD800)*0x400 + (low-0xDC00)`, width 2;
otherwise the code point is the code unit itself, width 1."  The result is the
list of (scalar code point, code-unit width) pairs of the whole string. -/
def decodeUnits : List Nat → List (Nat × Nat)
  | [] => []
  | [u] => [(u, 1)]
  | u :: l :: rest =>
    if 0xD800 ≤ u ∧ u ≤ 0xDBFF ∧ 0xDC00 ≤ l ∧ l ≤ 0xDFFF then
      (0x10000 + (u - 0xD800) * 0x400 + (l - 0xDC00), 2) :: decodeUnits rest
    else
      (u, 1) :: decodeUnits (l :: rest)

/-- UTF-16 encoder, the inverse of the decoder.  Modelled from the spec's
decoding rule (section 4.1): a code point below 0x10000 is a single code unit,
otherwise it is the surrogate pair recovered from
`0x10000 + (high-0xD800)*0x400 + (low-0xDC00)`. -/
def encodeCP (c : Nat) : List Nat :=
  if c < 0x10000 then [c]
  else [0xD800 + (c - 0x10000) / 0x400, 0xDC00 + (c - 0x10000) % 0x400]

/-- Sum of the code-unit widths of a decoded sequence. -/
def sumW : List (Nat × Nat) → Nat
  | [] => 0
  | e :: rest => e.2 + sumW rest

/-- Hangul no-break table.  Modelled from the spec's rule 4: "Never break
within a Hangul syllable sequence: L×L, L×(V|LV), (LV|V)×(V|T), (LVT|T)×T". -/
def hangulGlue (a b : GBCat) : Bool :=
  decide ((a = GBCat.L ∧ (b = GBCat.L ∨ b = GBCat.V ∨ b = GBCat.LV)) ∨
    ((a = GBCat.LV ∨ a = GBCat.V) ∧ (b = GBCat.V ∨ b = GBCat.T)) ∨
    ((a = GBCat.LVT ∨ a = GBCat.T) ∧ b = GBCat.T))

/-- Lookback scan for the emoji ZWJ rule.  Modelled from the spec's rule 5:
"the preceding run (scanning backward through Extend/modifier code points)
terminates in an Extended_Pictographic code point". -/
def precedingRunExtPict (cps : List (Nat × Nat)) (i : Nat) : Bool :=
  match ((cps.take i).reverse.dropWhile
      (fun e => decide (gbCat e.1 = GBCat.Extend))).head? with
  | some e => decide (gbCat e.1 = GBCat.ExtendedPictographic)
  | none => false

/-- Backward regional-indicator count for the flag rule.  Modelled from the
spec's rule 6: "count consecutive RegionalIndicator code points ending at i
(inclusive) scanning backward from the start of the run; if that count is odd,
the pair (i, i+1) is glued". -/
def riCountOdd (cps : List (Nat × Nat)) (i : Nat) : Bool :=
  (((cps.take i).reverse.takeWhile
      (fun e => decide (gbCat e.1 = GBCat.RegionalIndicator))).length + 1) % 2
    = 1

/-- Boundary engine.  Modelled from the spec's section 4.3: given the decoded
sequence and an adjacent pair index `i`, decide whether the pair (i, i+1) is
glued (no boundary between them), evaluating the no-break rules 1-6 in
priority order; rule 7 (otherwise, break) is the final `false`. -/
def noBreakBetween (cps : List (Nat × Nat)) (i : Nat) : Bool :=
  match cps[i]?, cps[i + 1]? with
  | some a, some b =>
    let ca := gbCat a.1
    let cb := gbCat b.1
    if a.1 = 0x0D ∧ b.1 = 0x0A then true
    else if cb = GBCat.Extend ∨ cb = GBCat.ZeroWidthJoiner ∨
        cb = GBCat.SpacingMark then true
    else if ca = GBCat.Prepend then true
    else if hangulGlue ca cb then true
    else if (cb = GBCat.ZeroWidthJoiner ∧
          (match cps[i + 2]? with
           | some c => decide (gbCat c.1 = GBCat.ExtendedPictographic)
           | none => false) = true) ∨
        (ca = GBCat.ZeroWidthJoiner ∧ precedingRunExtPict cps i = true) then
      true
    else if ca = GBCat.RegionalIndicator ∧ cb = GBCat.RegionalIndicator ∧
        riCountOdd cps i = true then true
    else false
  | _, _ => false

/-- Walk of the decoded sequence collecting the code-unit offsets of the
boundaries after each element: a boundary always follows the last element, and
an inner boundary follows element `i` exactly when the pair (i, i+1) is not
glued.  `cps` is the full decoded sequence (needed for the lookback rules),
`i` the index of the first remaining element and `off` its code-unit
offset. -/
def boundaryTail (cps : List (Nat × Nat)) : Nat → Nat → List (Nat × Nat) →
    List Nat
  | _, _, [] => []
  | _, off, [e] => [off + e.2]
  | i, off, e :: e2 :: rest =>
    if noBreakBetween cps i then boundaryTail cps (i + 1) (off + e.2) (e2 :: rest)
    else (off + e.2) :: boundaryTail cps (i + 1) (off + e.2) (e2 :: rest)

/-- All grapheme-cluster boundary offsets of a text, in increasing order.
Modelled from the spec: "boundaries are always found before the first code
unit and after the last code unit of the string (offsets 0 and length are
always valid boundaries)". -/
def boundaryOffsets (s : List Nat) : List Nat :=
  0 :: boundaryTail (decodeUnits s) 0 0 (decodeUnits s)

/-- `StringUtils.getNextUnicodeOffset` (src/stringutils.js line 769) delegates
to `GraphemeBreaker.nextBreak`.  Modelled from the spec: "returns the smallest
valid boundary strictly greater than `offset` (clamped: if `offset` ≥ length,
returns length)". -/
def getNextUnicodeOffset (s : List Nat) (offset : Nat) : Nat :=
  match (boundaryOffsets s).find? (fun b => decide (offset < b)) with
  | some b => b
  | none => s.length

/-- Fold step keeping the largest boundary strictly below `offset`. -/
def pbStep (offset : Int) (acc b : Nat) : Nat :=
  if (b : Int) < offset then max acc b else acc

/-- `StringUtils.getPreviousUnicodeOffset` (src/stringutils.js line 793)
delegates to `GraphemeBreaker.previousBreak`.  Modelled from the spec:
"returns the largest valid boundary strictly less than `offset` (clamped: if
`offset` ≤ 0, returns 0)". -/
def getPreviousUnicodeOffset (s : List Nat) (offset : Int) : Nat :=
  (boundaryOffsets s).foldl (pbStep offset) 0

/-- One split step per cluster: repeatedly take the substring up to the next
boundary.  The fuel argument bounds the number of iterations; `s.length` is
always enough because every step advances the offset. -/
def splitAux (s : List Nat) : Nat → Nat → List (List Nat)
  | _, 0 => []
  | offset, fuel + 1 =>
    if offset < s.length then
      ((s.drop offset).take (getNextUnicodeOffset s offset - offset)) ::
        splitAux s (getNextUnicodeOffset s offset) fuel
    else []

/-- `StringUtils.splitIntoUnicodeChar` (src/stringutils.js line 802) delegates
to `GraphemeBreaker.break`.  Modelled from the spec: "produces a finite,
restartable, ordered sequence of substrings, one per cluster, by repeatedly
calling `nextBreak` from 0 until reaching the string's length". -/
def splitIntoUnicodeChar (s : List Nat) : List (List Nat) :=
  splitAux s 0 s.length

/-- Counting loop: same advancement as `splitAux` but only counting. -/
def countAux (s : List Nat) : Nat → Nat → Nat
  | _, 0 => 0
  | offset, fuel + 1 =>
    if offset < s.length then
      countAux s (getNextUnicodeOffset s offset) fuel + 1
    else 0

/-- `StringUtils.countUnicodeChars` (src/stringutils.js line 811) delegates to
`GraphemeBreaker.countBreaks`.  Modelled from the spec: "returns the number of
clusters, computable by repeated boundary advancement without materializing
substrings". -/
def countUnicodeChars (s : List Nat) : Nat :=
  countAux s 0 s.length

theorem decodeUnits_width_pos : ∀ (s : List Nat), ∀ e ∈ decodeUnits s, 1 ≤ e.2
  | [] => by simp [decodeUnits]
  | [u] => by simp [decodeUnits]
  | u :: l :: rest => by
    simp only [decodeUnits]
    split
    · intro e he
      rcases List.mem_cons.mp he with h1 | h2
      · subst h1; simp
      · exact decodeUnits_width_pos rest e h2
    · intro e he
      rcases List.mem_cons.mp he with h1 | h2
      · subst h1; simp
      · exact decodeUnits_width_pos (l :: rest) e h2

theorem sumW_decodeUnits : ∀ (s : List Nat), sumW (decodeUnits s) = s.length
  | [] => by simp [decodeUnits, sumW]
  | [u] => by simp [decodeUnits, sumW]
  | u :: l :: rest => by
    simp only [decodeUnits]
    split
    · simp only [sumW, sumW_decodeUnits rest, List.length_cons]; omega
    · simp only [sumW, sumW_decodeUnits (l :: rest), List.length_cons]; omega

theorem decodeUnits_ne_nil (s : List Nat) (h : s ≠ []) : decodeUnits s ≠ [] := by
  match s with
  | [] => exact absurd rfl h
  | [u] => simp [decodeUnits]
  | u :: l :: rest => simp only [decodeUnits]; split <;> simp

theorem boundaryTail_mem_bounds (cps : List (Nat × Nat)) :
    ∀ (rem : List (Nat × Nat)) (i off : Nat), (∀ e ∈ rem, 1 ≤ e.2) →
    ∀ b ∈ boundaryTail cps i off rem, off < b ∧ b ≤ off + sumW rem := by
  intro rem
  induction rem with
  | nil => intro i off _ b hb; simp [boundaryTail] at hb
  | cons e rest ih =>
    intro i off hw b hb
    cases rest with
    | nil =>
      simp only [boundaryTail, List.mem_singleton] at hb
      have he : 1 ≤ e.2 := hw e (by simp)
      subst hb
      simp [sumW]; omega
    | cons e2 rest2 =>
      have hw2 : ∀ x ∈ e2 :: rest2, 1 ≤ x.2 := fun x hx => hw x (by simp [hx])
      have hsum : sumW (e :: e2 :: rest2) = e.2 + sumW (e2 :: rest2) := by
        simp [sumW]
      simp only [boundaryTail] at hb
      split at hb
      · have h2 := ih (i + 1) (off + e.2) hw2 b hb
        constructor
        · omega
        · omega
      · rcases List.mem_cons.mp hb with hb1 | hb2
        · have he : 1 ≤ e.2 := hw e (by simp)
          subst hb1
          constructor
          · omega
          · omega
        · have h2 := ih (i + 1) (off + e.2) hw2 b hb2
          constructor
          · omega
          · omega

theorem boundaryTail_pairwise (cps : List (Nat × Nat)) :
    ∀ (rem : List (Nat × Nat)) (i off : Nat), (∀ e ∈ rem, 1 ≤ e.2) →
    List.Pairwise (· < ·) (off :: boundaryTail cps i off rem) := by
  intro rem
  induction rem with
  | nil => intro i off _; simp [boundaryTail]
  | cons e rest ih =>
    intro i off hw
    have he : 1 ≤ e.2 := hw e (by simp)
    cases rest with
    | nil =>
      simp [boundaryTail, List.pairwise_cons]
      omega
    | cons e2 rest2 =>
      have hw2 : ∀ x ∈ e2 :: rest2, 1 ≤ x.2 := fun x hx => hw x (by simp [hx])
      have h2 := ih (i + 1) (off + e.2) hw2
      rw [List.pairwise_cons] at h2
      simp only [boundaryTail]
      split
      · rw [List.pairwise_cons]
        refine ⟨fun b hb => ?_, h2.2⟩
        have := h2.1 b hb
        omega
      · rw [List.pairwise_cons]
        refine ⟨fun b hb => ?_, by rw [List.pairwise_cons]; exact h2⟩
        rcases List.mem_cons.mp hb with hb1 | hb2
        · omega
        · have := h2.1 b hb2
          omega

theorem boundaryTail_total_mem (cps : List (Nat × Nat)) :
    ∀ (rem : List (Nat × Nat)) (i off : Nat), rem ≠ [] →
    off + sumW rem ∈ boundaryTail cps i off rem := by
  intro rem
  induction rem with
  | nil => intro i off h; exact absurd rfl h
  | cons e rest ih =>
    intro i off _
    cases rest with
    | nil => simp [boundaryTail, sumW]
    | cons e2 rest2 =>
      have hkey : off + sumW (e :: e2 :: rest2) =
          (off + e.2) + sumW (e2 :: rest2) := by simp [sumW]; omega
      rw [hkey]
      simp only [boundaryTail]
      split
      · exact ih (i + 1) (off + e.2) (by simp)
      · exact List.mem_cons.mpr (Or.inr (ih (i + 1) (off + e.2) (by simp)))

theorem zero_mem_boundaryOffsets (s : List Nat) : 0 ∈ boundaryOffsets s := by
  simp [boundaryOffsets]

theorem mem_boundaryOffsets_le (s : List Nat) :
    ∀ b ∈ boundaryOffsets s, b ≤ s.length := by
  intro b hb
  rcases List.mem_cons.mp hb with hb0 | hbt
  · omega
  · have := (boundaryTail_mem_bounds (decodeUnits s) (decodeUnits s) 0 0
      (decodeUnits_width_pos s) b hbt).2
    rw [sumW_decodeUnits] at this
    omega

theorem length_mem_boundaryOffsets (s : List Nat) :
    s.length ∈ boundaryOffsets s := by
  cases hs : s with
  | nil => simp [boundaryOffsets, decodeUnits, boundaryTail]
  | cons u rest =>
    rw [← hs]
    have hne : decodeUnits s ≠ [] := decodeUnits_ne_nil s (by rw [hs]; simp)
    have := boundaryTail_total_mem (decodeUnits s) (decodeUnits s) 0 0 hne
    rw [Nat.zero_add, sumW_decodeUnits] at this
    exact List.mem_cons.mpr (Or.inr this)

theorem boundaryOffsets_pairwise (s : List Nat) :
    List.Pairwise (· < ·) (boundaryOffsets s) :=
  boundaryTail_pairwise (decodeUnits s) (decodeUnits s) 0 0
    (decodeUnits_width_pos s)

theorem find?_sorted_min {l : List Nat} {x y : Nat}
    (hs : List.Pairwise (· < ·) l)
    (h : l.find? (fun b => decide (x < b)) = some y) :
    ∀ b ∈ l, x < b → y ≤ b := by
  induction l with
  | nil => simp at h
  | cons a l ih =>
    rw [List.pairwise_cons] at hs
    by_cases hxa : x < a
    · rw [List.find?_cons_of_pos _ (by simpa using hxa)] at h
      injection h with h1
      subst h1
      intro b hb _
      rcases List.mem_cons.mp hb with rfl | hbl
      · exact le_refl _
      · exact le_of_lt (hs.1 b hbl)
    · rw [List.find?_cons_of_neg _ (by simpa using hxa)] at h
      intro b hb hxb
      rcases List.mem_cons.mp hb with rfl | hbl
      · exact absurd hxb hxa
      · exact ih hs.2 h b hbl hxb

theorem getNextUnicodeOffset_le_length (s : List Nat) (offset : Nat) :
    getNextUnicodeOffset s offset ≤ s.length := by
  unfold getNextUnicodeOffset
  cases hf : (boundaryOffsets s).find? (fun b => decide (offset < b)) with
  | none => exact le_refl _
  | some b => exact mem_boundaryOffsets_le s b (List.mem_of_find?_eq_some hf)

theorem lt_getNextUnicodeOffset (s : List Nat) (offset : Nat)
    (h : offset < s.length) : offset < getNextUnicodeOffset s offset := by
  unfold getNextUnicodeOffset
  cases hf : (boundaryOffsets s).find? (fun b => decide (offset < b)) with
  | none => exact h
  | some b =>
    have := List.find?_some hf
    simpa using this

theorem getNextUnicodeOffset_clamp (s : List Nat) (offset : Nat)
    (h : s.length ≤ offset) : getNextUnicodeOffset s offset = s.length := by
  unfold getNextUnicodeOffset
  have hf : (boundaryOffsets s).find? (fun b => decide (offset < b)) = none := by
    rw [List.find?_eq_none]
    intro b hb
    have := mem_boundaryOffsets_le s b hb
    simp only [decide_eq_true_eq]
    omega
  rw [hf]

theorem getNextUnicodeOffset_mem (s : List Nat) (offset : Nat) :
    getNextUnicodeOffset s offset ∈ boundaryOffsets s := by
  unfold getNextUnicodeOffset
  cases hf : (boundaryOffsets s).find? (fun b => decide (offset < b)) with
  | none => exact length_mem_boundaryOffsets s
  | some b => exact List.mem_of_find?_eq_some hf

theorem getNextUnicodeOffset_min (s : List Nat) (offset : Nat) :
    ∀ b ∈ boundaryOffsets s, offset < b → getNextUnicodeOffset s offset ≤ b := by
  unfold getNextUnicodeOffset
  cases hf : (boundaryOffsets s).find? (fun b => decide (offset < b)) with
  | none =>
    intro b hb hob
    rw [List.find?_eq_none] at hf
    have := hf b hb
    simp only [decide_eq_true_eq] at this
    omega
  | some y => exact find?_sorted_min (boundaryOffsets_pairwise s) hf

theorem pbFold_ge (offset : Int) : ∀ (l : List Nat) (acc : Nat),
    acc ≤ l.foldl (pbStep offset) acc := by
  intro l
  induction l with
  | nil => intro acc; simp
  | cons a l ih =>
    intro acc
    rw [List.foldl_cons]
    have h1 : acc ≤ pbStep offset acc a := by
      unfold pbStep
      split
      · exact le_max_left _ _
      · exact le_refl _
    exact le_trans h1 (ih _)

theorem pbFold_mem (offset : Int) : ∀ (l : List Nat) (acc : Nat),
    l.foldl (pbStep offset) acc = acc ∨
    (l.foldl (pbStep offset) acc ∈ l ∧
      (((l.foldl (pbStep offset) acc : Nat) : Int) < offset)) := by
  intro l
  induction l with
  | nil => intro acc; left; rfl
  | cons a l ih =>
    intro acc
    rw [List.foldl_cons]
    rcases ih (pbStep offset acc a) with h | h
    · rw [h]
      unfold pbStep
      split
      · rcases max_choice acc a with hm | hm
        · rw [hm]; left; rfl
        · rw [hm]
          right
          exact ⟨List.mem_cons_self a l, by assumption⟩
      · left; rfl
    · right
      exact ⟨List.mem_cons.mpr (Or.inr h.1), h.2⟩

theorem pbFold_ub (offset : Int) : ∀ (l : List Nat) (acc b : Nat),
    b ∈ l → (b : Int) < offset → b ≤ l.foldl (pbStep offset) acc := by
  intro l
  induction l with
  | nil => intro acc b hb _; simp at hb
  | cons a l ih =>
    intro acc b hb hbo
    rw [List.foldl_cons]
    rcases List.mem_cons.mp hb with rfl | hbl
    · have h1 : b ≤ pbStep offset acc b := by
        unfold pbStep
        rw [if_pos hbo]
        exact le_max_right _ _
      exact le_trans h1 (pbFold_ge offset l _)
    · exact ih _ b hbl hbo

theorem getPreviousUnicodeOffset_nonpos (s : List Nat) (offset : Int)
    (h : offset ≤ 0) : getPreviousUnicodeOffset s offset = 0 := by
  unfold getPreviousUnicodeOffset
  rcases pbFold_mem offset (boundaryOffsets s) 0 with h1 | h1
  · exact h1
  · exfalso
    have := h1.2
    omega

theorem getPreviousUnicodeOffset_gt_length (s : List Nat) (offset : Int)
    (h : (s.length : Int) < offset) :
    getPreviousUnicodeOffset s offset = s.length := by
  have hub := pbFold_ub offset (boundaryOffsets s) 0 s.length
    (length_mem_boundaryOffsets s) h
  unfold getPreviousUnicodeOffset
  rcases pbFold_mem offset (boundaryOffsets s) 0 with h1 | h1
  · unfold getPreviousUnicodeOffset at hub
    omega
  · have hle := mem_boundaryOffsets_le s _ h1.1
    unfold getPreviousUnicodeOffset at hub
    omega

theorem getPreviousUnicodeOffset_mem_lt (s : List Nat) (offset : Int)
    (h : 0 < offset) : getPreviousUnicodeOffset s offset ∈ boundaryOffsets s ∧
      (getPreviousUnicodeOffset s offset : Int) < offset := by
  unfold getPreviousUnicodeOffset
  rcases pbFold_mem offset (boundaryOffsets s) 0 with h1 | h1
  · rw [h1]
    exact ⟨zero_mem_boundaryOffsets s, by simpa using h⟩
  · exact h1

theorem getPreviousUnicodeOffset_max (s : List Nat) (offset : Int) :
    ∀ b ∈ boundaryOffsets s, (b : Int) < offset →
      b ≤ getPreviousUnicodeOffset s offset := by
  intro b hb hbo
  exact pbFold_ub offset (boundaryOffsets s) 0 b hb hbo

theorem splitAux_join (s : List Nat) : ∀ (fuel offset : Nat),
    offset ≤ s.length → s.length - offset ≤ fuel →
    (splitAux s offset fuel).flatten = s.drop offset := by
  intro fuel
  induction fuel with
  | zero =>
    intro offset h1 h2
    have h3 : offset = s.length := by omega
    subst h3
    simp [splitAux, List.drop_length]
  | succ fuel ih =>
    intro offset h1 h2
    simp only [splitAux]
    split
    · rename_i hlt
      have hnb1 : offset < getNextUnicodeOffset s offset :=
        lt_getNextUnicodeOffset s offset hlt
      have hnb2 : getNextUnicodeOffset s offset ≤ s.length :=
        getNextUnicodeOffset_le_length s offset
      rw [List.flatten_cons, ih (getNextUnicodeOffset s offset) hnb2 (by omega)]
      have hdd : s.drop (getNextUnicodeOffset s offset) =
          (s.drop offset).drop (getNextUnicodeOffset s offset - offset) := by
        rw [List.drop_drop]
        congr 1
        omega
      rw [hdd, List.take_append_drop]
    · rename_i hge
      have h3 : offset = s.length := by omega
      subst h3
      simp [List.drop_length]

theorem splitAux_ne_nil (s : List Nat) : ∀ (fuel offset : Nat),
    ∀ c ∈ splitAux s offset fuel, c ≠ [] := by
  intro fuel
  induction fuel with
  | zero => intro offset c hc; simp [splitAux] at hc
  | succ fuel ih =>
    intro offset c hc
    simp only [splitAux] at hc
    split at hc
    · rename_i hlt
      rcases List.mem_cons.mp hc with rfl | h2
      · have h1 := lt_getNextUnicodeOffset s offset hlt
        intro hceq
        have h3 := congrArg List.length hceq
        simp [List.length_take, List.length_drop] at h3
        omega
      · exact ih _ c h2
    · simp at hc

theorem countAux_eq (s : List Nat) : ∀ (fuel offset : Nat),
    countAux s offset fuel = (splitAux s offset fuel).length := by
  intro fuel
  induction fuel with
  | zero => intro offset; simp [countAux, splitAux]
  | succ fuel ih =>
    intro offset
    simp only [countAux, splitAux]
    split
    · simp [ih]
    · simp

/-- C1.  Concatenating in order the substrings returned by
`splitIntoUnicodeChar` reproduces the original text exactly; every cluster is
a nonempty consecutive slice, so the clusters are an ordered, non-overlapping,
contiguous partition of the full code-unit range. -/
theorem splitIntoUnicodeChar_join (s : List Nat) :
    (splitIntoUnicodeChar s).flatten = s ∧
    ∀ c ∈ splitIntoUnicodeChar s, c ≠ [] := by
  constructor
  · have h := splitAux_join s s.length 0 (by omega) (by omega)
    simpa [splitIntoUnicodeChar] using h
  · intro c hc
    exact splitAux_ne_nil s s.length 0 c hc

theorem splitIntoUnicodeChar_join_witness :
    (splitIntoUnicodeChar [0x61, 0x62]).flatten = [0x61, 0x62] ∧
      [0x61] ≠ ([] : List Nat) :=
  ⟨(splitIntoUnicodeChar_join [0x61, 0x62]).1,
   (splitIntoUnicodeChar_join [0x61, 0x62]).2 [0x61] (by decide)⟩

/-- C2.  `getNextUnicodeOffset` returns the smallest valid grapheme-cluster
boundary strictly greater than `offset`, and for `offset` ≥ length it returns
the length. -/
theorem getNextUnicodeOffset_spec (s : List Nat) (offset : Nat) :
    (s.length ≤ offset → getNextUnicodeOffset s offset = s.length) ∧
    (offset < s.length →
      getNextUnicodeOffset s offset ∈ boundaryOffsets s ∧
      offset < getNextUnicodeOffset s offset ∧
      ∀ b ∈ boundaryOffsets s, offset < b →
        getNextUnicodeOffset s offset ≤ b) := by
  refine ⟨fun h => getNextUnicodeOffset_clamp s offset h, fun h => ?_⟩
  exact ⟨getNextUnicodeOffset_mem s offset,
    lt_getNextUnicodeOffset s offset h,
    getNextUnicodeOffset_min s offset⟩

theorem getNextUnicodeOffset_spec_witness :
    getNextUnicodeOffset [0x61] 5 = 1 ∧ 0 < getNextUnicodeOffset [0x61] 0 :=
  ⟨(getNextUnicodeOffset_spec [0x61] 5).1 (by decide),
   ((getNextUnicodeOffset_spec [0x61] 0).2 (by decide)).2.1⟩

/-- C3.  `getPreviousUnicodeOffset` returns the largest valid grapheme-cluster
boundary strictly less than `offset`; for `offset` ≤ 0 it returns 0 and for
`offset` > length it returns the length. -/
theorem getPreviousUnicodeOffset_spec (s : List Nat) (offset : Int) :
    (offset ≤ 0 → getPreviousUnicodeOffset s offset = 0) ∧
    ((s.length : Int) < offset →
      getPreviousUnicodeOffset s offset = s.length) ∧
    (0 < offset →
      getPreviousUnicodeOffset s offset ∈ boundaryOffsets s ∧
      ((getPreviousUnicodeOffset s offset : Nat) : Int) < offset ∧
      ∀ b ∈ boundaryOffsets s, (b : Int) < offset →
        b ≤ getPreviousUnicodeOffset s offset) := by
  refine ⟨fun h => getPreviousUnicodeOffset_nonpos s offset h,
    fun h => getPreviousUnicodeOffset_gt_length s offset h, fun h => ?_⟩
  have h1 := getPreviousUnicodeOffset_mem_lt s offset h
  exact ⟨h1.1, h1.2, getPreviousUnicodeOffset_max s offset⟩

theorem getPreviousUnicodeOffset_spec_witness :
    getPreviousUnicodeOffset [0x61] (-3) = 0 ∧
    getPreviousUnicodeOffset [0x61] 5 = 1 ∧
    getPreviousUnicodeOffset [0x61] 1 ∈ boundaryOffsets [0x61] :=
  ⟨(getPreviousUnicodeOffset_spec [0x61] (-3)).1 (by decide),
   (getPreviousUnicodeOffset_spec [0x61] 5).2.1 (by decide),
   (((getPreviousUnicodeOffset_spec [0x61] 1).2.2 (by decide)).1)⟩

/-- C6.  The two end offsets are fixed points: `nextBreak(text, length) =
length` and `previousBreak(text, 0) = 0`. -/
theorem breakOffsets_idempotent_clamp (s : List Nat) :
    getNextUnicodeOffset s s.length = s.length ∧
    getPreviousUnicodeOffset s 0 = 0 :=
  ⟨getNextUnicodeOffset_clamp s s.length (le_refl _),
   getPreviousUnicodeOffset_nonpos s 0 (le_refl _)⟩

/-- C7.  `countUnicodeChars` equals the number of substrings returned by
`splitIntoUnicodeChar` (it counts by repeated boundary advancement without
materializing substrings), and the empty text yields 0. -/
theorem countUnicodeChars_eq_split_length (s : List Nat) :
    countUnicodeChars s = (splitIntoUnicodeChar s).length ∧
    countUnicodeChars [] = 0 :=
  ⟨countAux_eq s s.length 0, rfl⟩

/-- Code units of the 15-code-unit test string made of four emoji clusters of
widths 2, 4, 2 and 7 (U+1F61C; U+1F44D U+1F3FC; U+1F44D; U+1F926 U+1F3FB
U+200D U+2642 U+FE0F), the scenario of the spec and of the repository's
tests. -/
def emojiScenario : List Nat :=
  [0xD83D, 0xDE1C, 0xD83D, 0xDC4D, 0xD83C, 0xDFFC, 0xD83D, 0xDC4D,
   0xD83E, 0xDD26, 0xD83C, 0xDFFB, 0x200D, 0x2642, 0xFE0F]

/-- C5.  On the 15-code-unit four-emoji scenario string, chaining `nextBreak`
from 0 yields 2, 6, 8, 15 and then 15 again; chaining `previousBreak` from 15
yields 8, 6, 2, 0 and then 0 again; `countUnicodeChars` returns 4; and
`splitIntoUnicodeChar` returns the four substrings of widths 2, 4, 2, 7 in
order. -/
theorem emojiScenario_spec :
    emojiScenario.length = 15 ∧
    getNextUnicodeOffset emojiScenario 0 = 2 ∧
    getNextUnicodeOffset emojiScenario 2 = 6 ∧
    getNextUnicodeOffset emojiScenario 6 = 8 ∧
    getNextUnicodeOffset emojiScenario 8 = 15 ∧
    getNextUnicodeOffset emojiScenario 15 = 15 ∧
    getPreviousUnicodeOffset emojiScenario 15 = 8 ∧
    getPreviousUnicodeOffset emojiScenario 8 = 6 ∧
    getPreviousUnicodeOffset emojiScenario 6 = 2 ∧
    getPreviousUnicodeOffset emojiScenario 2 = 0 ∧
    getPreviousUnicodeOffset emojiScenario 0 = 0 ∧
    countUnicodeChars emojiScenario = 4 ∧
    splitIntoUnicodeChar emojiScenario =
      [[0xD83D, 0xDE1C], [0xD83D, 0xDC4D, 0xD83C, 0xDFFC], [0xD83D, 0xDC4D],
       [0xD83E, 0xDD26, 0xD83C, 0xDFFB, 0x200D, 0x2642, 0xFE0F]] := by
  decide

theorem gbCat_RI {r : Nat} (h1 : 0x1F1E6 ≤ r) (h2 : r ≤ 0x1F1FF) :
    gbCat r = GBCat.RegionalIndicator := by
  unfold gbCat
  rw [if_neg (by omega), if_pos (by omega)]

theorem encodeCP_RI {r : Nat} (h1 : 0x1F1E6 ≤ r) (h2 : r ≤ 0x1F1FF) :
    encodeCP r = [0xD83C, 0xDC00 + (r - 0x10000) % 0x400] := by
  unfold encodeCP
  rw [if_neg (by omega)]
  have h3 : (r - 0x10000) / 0x400 = 0x3C := by omega
  rw [h3]

theorem decodeUnits_two_RI {r1 r2 : Nat}
    (h1 : 0x1F1E6 ≤ r1) (h2 : r1 ≤ 0x1F1FF)
    (h3 : 0x1F1E6 ≤ r2) (h4 : r2 ≤ 0x1F1FF) :
    decodeUnits (encodeCP r1 ++ encodeCP r2) = [(r1, 2), (r2, 2)] := by
  rw [encodeCP_RI h1 h2, encodeCP_RI h3 h4]
  simp only [List.cons_append, List.nil_append, decodeUnits]
  rw [if_pos (by omega), if_pos (by omega)]
  simp only [List.cons.injEq, Prod.mk.injEq, and_true]
  omega

theorem noBreak_RI_pair {c1 c2 w1 w2 : Nat}
    (h1 : gbCat c1 = GBCat.RegionalIndicator)
    (h2 : gbCat c2 = GBCat.RegionalIndicator) :
    noBreakBetween [(c1, w1), (c2, w2)] 0 = true := by
  have hc1 : c1 ≠ 0x0D := by
    intro he
    rw [he] at h1
    exact absurd h1 (by decide)
  simp [noBreakBetween, riCountOdd, h1, h2, hc1]

theorem boundary_two_glued {s : List Nat} {c1 c2 : Nat}
    (hd : decodeUnits s = [(c1, 2), (c2, 2)])
    (hnb : noBreakBetween (decodeUnits s) 0 = true) :
    boundaryOffsets s = [0, 4] := by
  unfold boundaryOffsets
  rw [hd] at hnb ⊢
  simp [boundaryTail, hnb]

theorem countAux_at_end (s : List Nat) : ∀ fuel, countAux s s.length fuel = 0 := by
  intro fuel
  cases fuel <;> simp [countAux]

theorem countUnicodeChars_of_single (s : List Nat)
    (h : getNextUnicodeOffset s 0 = s.length) (hpos : 0 < s.length) :
    countUnicodeChars s = 1 := by
  unfold countUnicodeChars
  obtain ⟨n, hn⟩ : ∃ n, s.length = n + 1 := ⟨s.length - 1, by omega⟩
  rw [hn]
  simp only [countAux]
  rw [if_pos hpos, h, countAux_at_end]

/-- C4.  For a text made of exactly two regional-indicator code points (for
example "US"), `countUnicodeChars` returns 1 and `getNextUnicodeOffset` at 0
jumps to the full 4-code-unit length: the flag pair is one atomic cluster. -/
theorem twoRegionalIndicators_spec (r1 r2 : Nat)
    (h1 : 0x1F1E6 ≤ r1) (h2 : r1 ≤ 0x1F1FF)
    (h3 : 0x1F1E6 ≤ r2) (h4 : r2 ≤ 0x1F1FF) :
    countUnicodeChars (encodeCP r1 ++ encodeCP r2) = 1 ∧
    getNextUnicodeOffset (encodeCP r1 ++ encodeCP r2) 0 =
      (encodeCP r1 ++ encodeCP r2).length ∧
    (encodeCP r1 ++ encodeCP r2).length = 4 := by
  have hlen : (encodeCP r1 ++ encodeCP r2).length = 4 := by
    rw [encodeCP_RI h1 h2, encodeCP_RI h3 h4]
    simp
  have hdec := decodeUnits_two_RI h1 h2 h3 h4
  have hnb : noBreakBetween (decodeUnits (encodeCP r1 ++ encodeCP r2)) 0
      = true := by
    rw [hdec]
    exact noBreak_RI_pair (gbCat_RI h1 h2) (gbCat_RI h3 h4)
  have hb : boundaryOffsets (encodeCP r1 ++ encodeCP r2) = [0, 4] :=
    boundary_two_glued hdec hnb
  have hnext : getNextUnicodeOffset (encodeCP r1 ++ encodeCP r2) 0 = 4 := by
    unfold getNextUnicodeOffset
    rw [hb]
    rfl
  have hnext2 : getNextUnicodeOffset (encodeCP r1 ++ encodeCP r2) 0 =
      (encodeCP r1 ++ encodeCP r2).length := by omega
  exact ⟨countUnicodeChars_of_single _ hnext2 (by omega), hnext2, hlen⟩

theorem twoRegionalIndicators_spec_witness :
    countUnicodeChars (encodeCP 0x1F1FA ++ encodeCP 0x1F1F8) = 1 ∧
    getNextUnicodeOffset (encodeCP 0x1F1FA ++ encodeCP 0x1F1F8) 0 =
      (encodeCP 0x1F1FA ++ encodeCP 0x1F1F8).length := by
  have h := twoRegionalIndicators_spec 0x1F1FA 0x1F1F8
    (by decide) (by decide) (by decide) (by decide)
  exact ⟨h.1, h.2.1⟩

theorem getPreviousUnicodeOffset_le_length (s : List Nat) (offset : Int) :
    getPreviousUnicodeOffset s offset ≤ s.length := by
  unfold getPreviousUnicodeOffset
  rcases pbFold_mem offset (boundaryOffsets s) 0 with h | h
  · rw [h]
    exact Nat.zero_le _
  · exact mem_boundaryOffsets_le s _ h.1

theorem gbCat_surrogate {u : Nat} (h1 : 0xD800 ≤ u) (h2 : u ≤ 0xDFFF) :
    gbCat u = GBCat.Other := by
  unfold gbCat
  repeat rw [if_neg (by omega)]

/-- C8.  The four iteration operations are total over every UTF-16-like
input: the returned offsets are always within [0, length], the decoder
consumes every code unit (so no input faults), and malformed or unpaired
surrogates are handled as single-code-unit code points with category `Other`
rather than by signaling failure.  Determinism and non-mutation hold because
the operations are pure functions of the input list. -/
theorem graphemeApi_total (s : List Nat) (offset : Nat) (ioffset : Int) :
    getNextUnicodeOffset s offset ≤ s.length ∧
    getPreviousUnicodeOffset s ioffset ≤ s.length ∧
    sumW (decodeUnits s) = s.length ∧
    (∀ u : Nat, 0xD800 ≤ u → u ≤ 0xDFFF → gbCat u = GBCat.Other) ∧
    (∀ u : Nat, decodeUnits [u] = [(u, 1)]) :=
  ⟨getNextUnicodeOffset_le_length s offset,
   getPreviousUnicodeOffset_le_length s ioffset,
   sumW_decodeUnits s,
   fun _ hu1 hu2 => gbCat_surrogate hu1 hu2,
   fun _ => rfl⟩

theorem graphemeApi_total_witness :
    getNextUnicodeOffset [0xD800, 0x61] 0 ≤ 2 ∧
    gbCat 0xD800 = GBCat.Other ∧
    decodeUnits [0xDC00] = [(0xDC00, 1)] := by
  have h := graphemeApi_total [0xD800, 0x61] 0 0
  exact ⟨by simpa using h.1, h.2.2.2.1 0xD800 (by decide) (by decide),
    h.2.2.2.2 0xDC00⟩

/-- A half-open character range, the elements of the `ranges` argument of
`truncateTextByRanges` (src/stringutils.js lines 890-918).  The source field
named `end` is a reserved word in Lean and is called `stop` here. -/
structure TRange where
  start : Int
  stop : Int

/-- Comparator of `truncateTextByRanges`: the source sorts `ranges` with
`(left, right) => left.start - right.start`, i.e. ascending by `start`. -/
def rangeLE (a b : TRange) : Prop := a.start ≤ b.start

instance : DecidableRel rangeLE := fun a b =>
  (inferInstance : Decidable (a.start ≤ b.start))

instance : IsTotal TRange rangeLE := ⟨fun a b => Int.le_total a.start b.start⟩

instance : IsTrans TRange rangeLE := ⟨fun _ _ _ hab hbc => le_trans hab hbc⟩

/-- Index clamping of JavaScript `String.prototype.substring`: negative
arguments become 0 and arguments beyond the length become the length. -/
def jsClamp (len : Nat) (i : Int) : Nat :=
  if i < 0 then 0 else min i.toNat len

/-- `StringUtils.splice` (src/stringutils.js lines 217-237): keep the prefix
before `startIndex`, optionally insert `addText` (skipped when undefined,
null or empty), and keep the suffix from `startIndex + deleteCount` on, with
JavaScript `substring` clamping. -/
def splice (text : List Char) (startIndex deleteCount : Int)
    (addText : Option (List Char)) : List Char :=
  text.take (jsClamp text.length startIndex) ++
    (match addText with
     | some a => a
     | none => []) ++
    text.drop (jsClamp text.length (startIndex + deleteCount))

/-- `StringUtils.truncateTextByRanges` (src/stringutils.js lines 901-918):
sorts the `ranges` array in place ascending by `start` (JavaScript
`Array.sort` with the numeric comparator), then removes the ranges from the
highest index down using `splice`.  The in-place sort is a side effect on the
caller's array, so the model returns the pair (result text, final state of
the `ranges` array). -/
def truncateTextByRanges (text : List Char) (ranges : List TRange)
    (rangeOffset : Int) : List Char × List TRange :=
  let sorted := List.insertionSort rangeLE ranges
  (sorted.reverse.foldl
    (fun t r => splice t (r.start + rangeOffset) (r.stop - r.start) none)
    text,
   sorted)

/-- C9.  After every call, the caller-visible `ranges` array is a permutation
of the input permuted into order sorted ascending by the `start` field; the
input text is a value the function only reads (the result is a fresh
string). -/
theorem truncateTextByRanges_sorts_ranges (text : List Char)
    (ranges : List TRange) (rangeOffset : Int) :
    List.Perm (truncateTextByRanges text ranges rangeOffset).2 ranges ∧
    List.Sorted rangeLE (truncateTextByRanges text ranges rangeOffset).2 := by
  constructor
  · show List.Perm (List.insertionSort rangeLE ranges) ranges
    exact List.perm_insertionSort rangeLE ranges
  · show List.Sorted rangeLE (List.insertionSort rangeLE ranges)
    exact List.sorted_insertionSort rangeLE ranges

/-- Character class `[\w- ]` of the placeholder name pattern
`stringPlaceholderPattern` (src/stringutils.js line 39): letters, digits,
underscore, hyphen and space. -/
def isNameChar (c : Char) : Bool :=
  c.isAlpha || c.isDigit || c == '_' || c == '-' || c == ' '

/-- Characters matched by the regular-expression dot of the default-value
part `(:.+)`: anything except the JavaScript line terminators. -/
def isDotChar (c : Char) : Bool :=
  !(c == '\n' || c == '\r' || c.toNat == 0x2028 || c.toNat == 0x2029)

/-- Greedy parser of the `(\.[\w- ]+)*` part of the placeholder name: consume
dot-separated name-character runs as long as possible.  Fuel-based; the
callers pass enough fuel since each step consumes at least two characters. -/
def parseDotsF : Nat → List Char → List Char × List Char
  | 0, cs => ([], cs)
  | _ + 1, [] => ([], [])
  | fuel + 1, c :: cs2 =>
    if c = '.' ∧ cs2.takeWhile isNameChar ≠ [] then
      (c :: (cs2.takeWhile isNameChar ++
          (parseDotsF fuel (cs2.dropWhile isNameChar)).1),
        (parseDotsF fuel (cs2.dropWhile isNameChar)).2)
    else ([], c :: cs2)

/-- Greedy parser of the whole name group `([\w- ]+(\.[\w- ]+)*)`: a
nonempty name-character run followed by greedy dot groups.  Returns the
matched name and the remaining characters. -/
def parseName (cs : List Char) : Option (List Char × List Char) :=
  if cs.takeWhile isNameChar = [] then none
  else
    some (cs.takeWhile isNameChar ++
        (parseDotsF cs.length (cs.dropWhile isNameChar)).1,
      (parseDotsF cs.length (cs.dropWhile isNameChar)).2)

/-- Index of the last closing brace of a character list, if any. -/
def lastCloseIdx : List Char → Option Nat
  | [] => none
  | c :: cs =>
    match lastCloseIdx cs with
    | some p => some (p + 1)
    | none => if c == '}' then some 0 else none

/-- Parser of the greedy `.+}` tail of a placeholder with a default value:
`.+` matches greedily any non-line-terminator run, then backtracks to the
last closing brace, which must leave at least one character for `.+`.
Returns the default text (without the brace) and the remainder after the
brace. -/
def parseDefault (cs : List Char) : Option (List Char × List Char) :=
  match lastCloseIdx (cs.takeWhile isDotChar) with
  | some p => if 1 ≤ p then some ((cs.takeWhile isDotChar).take p, cs.drop (p + 1))
      else none
  | none => none

/-- Attempt to match the placeholder pattern
`\$\{([\w- ]+(\.[\w- ]+)*)(:.+)?\}` at the start of the list.  On success
returns (name group, optional default group including its leading colon,
remainder after the match). -/
def tryMatch (cs : List Char) :
    Option (List Char × Option (List Char) × List Char) :=
  match cs with
  | c1 :: c2 :: rest =>
    if c1 = '$' ∧ c2 = '{' then
      match parseName rest with
      | some pr =>
        match pr.2 with
        | [] => none
        | d :: rest2 =>
          if d = '}' then some (pr.1, none, rest2)
          else if d = ':' then
            match parseDefault rest2 with
            | some dr => some (pr.1, some (':' :: dr.1), dr.2)
            | none => none
          else none
      | none => none
    else none
  | _ => none

/-- Leftmost placeholder match, as found by `RegExp.exec`: try every start
position from the left.  On success returns (text before the match, name
group, optional default group, remainder after the match). -/
def findPH : List Char →
    Option (List Char × List Char × Option (List Char) × List Char)
  | [] => none
  | c :: cs =>
    match tryMatch (c :: cs) with
    | some m => some ([], m.1, m.2.1, m.2.2)
    | none =>
      match findPH cs with
      | some m => some (c :: m.1, m.2.1, m.2.2.1, m.2.2.2)
      | none => none

/-- `StringUtils.camelCaseNamePath` (src/stringutils.js lines 544-550): split
the name path on dots, camel-case every part, and rejoin with dots.  The
per-part camel casing is `StringUtils.camelCase`, which delegates to the
external change-case package and is abstracted as the parameter `cc`. -/
def camelCaseNamePath (cc : List Char → List Char) (namePath : List Char) :
    List Char :=
  List.intercalate ['.'] ((namePath.splitOn '.').map cc)

/-- The `exec` loop of `StringUtils.resolvePlaceholder` (src/stringutils.js
lines 309-365): repeatedly find the leftmost placeholder, emit the gap text,
call the resolver on the camel-cased name path, and emit the resolver's value
— or, when the resolver returns undefined, the default group if present and
otherwise the bare placeholder name.  Returns the output together with the
list of arguments passed to the resolver.  Fuel-based; every iteration
consumes at least one character. -/
def resolveLoop (cc : List Char → List Char)
    (resolver : List Char → Option (List Char)) :
    Nat → List Char → List Char × List (List Char)
  | 0, cs => (cs, [])
  | fuel + 1, cs =>
    match findPH cs with
    | none => (cs, [])
    | some m =>
      let pr := resolveLoop cc resolver fuel m.2.2.2
      (m.1 ++
        (match resolver (camelCaseNamePath cc m.2.1) with
         | some v => v
         | none =>
           match m.2.2.1 with
           | some d => d
           | none => m.2.1) ++ pr.1,
       camelCaseNamePath cc m.2.1 :: pr.2)

/-- `StringUtils.resolvePlaceholder`, instrumented: the first component is
the function's return value, the second the list of arguments the resolver
was invoked with (in order). -/
def resolvePlaceholder (cc : List Char → List Char)
    (resolver : List Char → Option (List Char)) (text : List Char) :
    List Char × List (List Char) :=
  resolveLoop cc resolver text.length text

/-- Names of the placeholders of a text, leftmost first, as matched by the
`exec` loop. -/
def phNames : Nat → List Char → List (List Char)
  | 0, _ => []
  | fuel + 1, cs =>
    match findPH cs with
    | none => []
    | some m => m.2.1 :: phNames fuel m.2.2.2

theorem parseDotsF_append : ∀ (fuel : Nat) (cs : List Char),
    (parseDotsF fuel cs).1 ++ (parseDotsF fuel cs).2 = cs := by
  intro fuel
  induction fuel with
  | zero => intro cs; simp [parseDotsF]
  | succ fuel ih =>
    intro cs
    cases cs with
    | nil => simp [parseDotsF]
    | cons c cs2 =>
      simp only [parseDotsF]
      split
      · rw [List.cons_append, List.append_assoc,
          ih (cs2.dropWhile isNameChar), List.takeWhile_append_dropWhile]
      · rw [List.nil_append]

theorem parseName_append : ∀ {cs a b : List Char},
    parseName cs = some (a, b) → a ++ b = cs ∧ a ≠ [] := by
  intro cs a b h
  unfold parseName at h
  split at h
  · simp at h
  · rename_i hne
    simp only [Option.some.injEq, Prod.mk.injEq] at h
    obtain ⟨h1, h2⟩ := h
    subst h1 h2
    refine ⟨?_, ?_⟩
    · rw [List.append_assoc, parseDotsF_append cs.length (cs.dropWhile isNameChar),
        List.takeWhile_append_dropWhile]
    · intro habs
      exact hne (List.append_eq_nil.mp habs).1

theorem lastCloseIdx_lt : ∀ (l : List Char) (p : Nat),
    lastCloseIdx l = some p → p < l.length := by
  intro l
  induction l with
  | nil => intro p h; simp [lastCloseIdx] at h
  | cons c cs ih =>
    intro p h
    simp only [lastCloseIdx] at h
    cases hl : lastCloseIdx cs with
    | some q =>
      rw [hl] at h
      simp only [Option.some.injEq] at h
      subst h
      have := ih q hl
      simp only [List.length_cons]
      omega
    | none =>
      rw [hl] at h
      have h2 : (if c == '}' then some 0 else none) = some p := h
      split at h2
      · simp only [Option.some.injEq] at h2
        subst h2
        simp
      · simp at h2

theorem takeWhile_length_le (p : Char → Bool) (l : List Char) :
    (l.takeWhile p).length ≤ l.length := by
  have h := congrArg List.length (List.takeWhile_append_dropWhile p l)
  rw [List.length_append] at h
  omega

theorem parseDefault_length {cs d r : List Char}
    (h : parseDefault cs = some (d, r)) : r.length + 2 ≤ cs.length := by
  unfold parseDefault at h
  cases hl : lastCloseIdx (cs.takeWhile isDotChar) with
  | none => rw [hl] at h; simp at h
  | some p =>
    rw [hl] at h
    have hx : (if 1 ≤ p then
        some ((cs.takeWhile isDotChar).take p, cs.drop (p + 1))
        else none) = some (d, r) := h
    split at hx
    · simp only [Option.some.injEq, Prod.mk.injEq] at hx
      obtain ⟨h1, h2⟩ := hx
      subst h2
      have hlt := lastCloseIdx_lt _ p hl
      have hle := takeWhile_length_le isDotChar cs
      rw [List.length_drop]
      omega
    · simp at hx

theorem tryMatch_length : ∀ {cs n : List Char} {g : Option (List Char)}
    {r : List Char}, tryMatch cs = some (n, g, r) → r.length + 3 ≤ cs.length := by
  intro cs n g r h
  match cs with
  | [] => simp [tryMatch] at h
  | [c1] => simp [tryMatch] at h
  | c1 :: c2 :: rest =>
    simp only [tryMatch] at h
    split at h
    · cases hpn : parseName rest with
      | none => rw [hpn] at h; simp at h
      | some pr =>
        rw [hpn] at h
        obtain ⟨a, b⟩ := pr
        have hab := parseName_append hpn
        have ha : 1 ≤ a.length := by
          cases a with
          | nil => exact absurd rfl hab.2
          | cons x xs => simp
        have hrest : rest.length = a.length + b.length := by
          rw [← hab.1, List.length_append]
        cases b with
        | nil => simp at h
        | cons dch rest2 =>
          have hx : (if dch = '}' then some (a, none, rest2)
              else if dch = ':' then
                match parseDefault rest2 with
                | some dr => some (a, some (':' :: dr.1), dr.2)
                | none => none
              else none) = some (n, g, r) := h
          split at hx
          · simp only [Option.some.injEq, Prod.mk.injEq] at hx
            obtain ⟨h1, h2, h3⟩ := hx
            subst h3
            simp only [List.length_cons] at hrest ⊢
            omega
          · split at hx
            · cases hpd : parseDefault rest2 with
              | none => rw [hpd] at hx; simp at hx
              | some dr =>
                rw [hpd] at hx
                obtain ⟨dd, rr⟩ := dr
                simp only [Option.some.injEq, Prod.mk.injEq] at hx
                obtain ⟨h1, h2, h3⟩ := hx
                subst h3
                have hd := parseDefault_length hpd
                simp only [List.length_cons] at hrest ⊢
                omega
            · simp at hx
    · simp at h

theorem findPH_length : ∀ {cs pre n : List Char} {g : Option (List Char)}
    {r : List Char}, findPH cs = some (pre, n, g, r) → r.length < cs.length := by
  intro cs
  induction cs with
  | nil => intro pre n g r h; simp [findPH] at h
  | cons c cs2 ih =>
    intro pre n g r h
    simp only [findPH] at h
    cases ht : tryMatch (c :: cs2) with
    | some m =>
      rw [ht] at h
      obtain ⟨mn, mg, mr⟩ := m
      have hl := tryMatch_length ht
      simp only [Option.some.injEq, Prod.mk.injEq] at h
      obtain ⟨h1, h2, h3, h4⟩ := h
      subst h4
      simp only [List.length_cons] at hl ⊢
      omega
    | none =>
      rw [ht] at h
      cases hf : findPH cs2 with
      | none => rw [hf] at h; simp at h
      | some m2 =>
        rw [hf] at h
        obtain ⟨p2, n2, g2, r2⟩ := m2
        have hl := ih hf
        simp only [Option.some.injEq, Prod.mk.injEq] at h
        obtain ⟨h1, h2, h3, h4⟩ := h
        subst h4
        simp only [List.length_cons]
        omega

theorem resolveLoop_fuel (cc : List Char → List Char)
    (resolver : List Char → Option (List Char)) :
    ∀ (f1 f2 : Nat) (cs : List Char), cs.length ≤ f1 → cs.length ≤ f2 →
    resolveLoop cc resolver f1 cs = resolveLoop cc resolver f2 cs := by
  intro f1
  induction f1 with
  | zero =>
    intro f2 cs h1 h2
    have hcs : cs = [] := List.eq_nil_of_length_eq_zero (by omega)
    subst hcs
    cases f2 <;> simp [resolveLoop, findPH]
  | succ f1 ih =>
    intro f2 cs h1 h2
    cases f2 with
    | zero =>
      have hcs : cs = [] := List.eq_nil_of_length_eq_zero (by omega)
      subst hcs
      simp [resolveLoop, findPH]
    | succ f2 =>
      simp only [resolveLoop]
      cases hf : findPH cs with
      | none => rfl
      | some m =>
        obtain ⟨pre, n, g, r⟩ := m
        have hr := findPH_length hf
        simp only [ih f2 r (by omega) (by omega)]

theorem resolveLoop_calls (cc : List Char → List Char)
    (resolver : List Char → Option (List Char)) :
    ∀ (fuel : Nat) (cs : List Char),
    (resolveLoop cc resolver fuel cs).2 =
      (phNames fuel cs).map (camelCaseNamePath cc) := by
  intro fuel
  induction fuel with
  | zero => intro cs; simp [resolveLoop, phNames]
  | succ fuel ih =>
    intro cs
    simp only [resolveLoop, phNames]
    cases hf : findPH cs with
    | none => simp
    | some m => simp [ih]

/-- C10.  Every argument `resolvePlaceholder` passes to the resolver is the
camel-cased form (`camelCaseNamePath`) of a matched placeholder's name path,
in order; and whenever the resolver returns undefined for a placeholder that
carries no default-value segment, the whole `${name}` match is replaced in
the output by the original, non-camel-cased name text without the `${}`
delimiters. -/
theorem resolvePlaceholder_spec (cc : List Char → List Char)
    (resolver : List Char → Option (List Char)) (text : List Char) :
    (resolvePlaceholder cc resolver text).2 =
      (phNames text.length text).map (camelCaseNamePath cc) ∧
    (∀ pre name rest, findPH text = some (pre, name, none, rest) →
      resolver (camelCaseNamePath cc name) = none →
      (resolvePlaceholder cc resolver text).1 =
        pre ++ name ++ (resolvePlaceholder cc resolver rest).1) := by
  constructor
  · exact resolveLoop_calls cc resolver text.length text
  · intro pre name rest hfind hres
    have hr := findPH_length hfind
    obtain ⟨k, hk⟩ : ∃ k, text.length = k + 1 := ⟨text.length - 1, by omega⟩
    simp only [resolvePlaceholder]
    rw [hk]
    simp only [resolveLoop]
    rw [hfind]
    simp only [hres]
    rw [resolveLoop_fuel cc resolver k rest.length rest (by omega) (le_refl _)]

theorem resolvePlaceholder_spec_witness :
    (resolvePlaceholder (fun s => s) (fun _ => none)
      ['$', '{', 'a', '}']).1 = ['a'] := by
  have h := (resolvePlaceholder_spec (fun s => s) (fun _ => none)
      ['$', '{', 'a', '}']).2 [] ['a'] [] (by decide) rfl
  simpa using h

